import Mathlib

/-!
Verification development for the energy-based VAD module (vad.py).

The module segments audio into speech and silence intervals.  Its core is a
sentinel-based scan over a boolean per-frame mask that extracts maximal
contiguous runs as inclusive index pairs, followed by unit conversion and
minimum-duration filtering.

Modelling conventions:
* Numeric values are rationals.  The base-10 logarithm used by
  `librosa.power_to_db` and the power `10 ** x` used by the feature-to-power
  conversion are not rational-valued, so they are passed as abstract function
  parameters `log10` and `pow10`; no theorem below depends on their actual
  values except through explicitly stated hypotheses.
* `librosa.feature.rms` is external library code (feature extraction is an
  external collaborator of this module); the squared rms profile `mse` of the
  signal is therefore taken as an input of the embedded `SigVad` pipeline.
* Python `assert` failures, raised exceptions and index errors are modelled by
  an `Option` result: `none` means the call fails loudly.
-/

namespace EnergyVad

/-- Value of a boolean mask at index `i`; `false` when out of range.  This is
how the scan loops treat out-of-range indices. -/
def maskGet (mask : List Bool) (i : ℕ) : Bool := mask.getD i false

/-- Membership test `x in sil_index` from the scan loops in
`MelVad.get_nosil_endpoints` and `SigVad._get_sil_endpoints`: `sil_index` is
the array of indices where the thresholded mask holds (`np.where(...)[0]`), so
an integer `x` is a member iff it is a valid nonnegative index at which the
mask is true. -/
def memIdx (mask : List Bool) (x : ℤ) : Bool :=
  if 0 ≤ x then maskGet mask x.toNat else false

/-- One iteration of the sentinel scan loop body shared by
`MelVad.get_nosil_endpoints` (vad.py lines 72-78) and
`SigVad._get_sil_endpoints` (lines 145-152).  The state is the list built so
far together with the current `start` variable (initially `None`).  The
parameter `conv` is the conversion applied when an index is stored: the
identity `int(...)` for `MelVad`, and `librosa.frames_to_samples`, i.e.
multiplication by the hop length, for `SigVad`. -/
def scanStep (conv : ℤ → ℤ) (mask : List Bool)
    (st : List (Option ℤ × ℤ) × Option ℤ) (i : ℕ) :
    List (Option ℤ × ℤ) × Option ℤ :=
  let x : ℤ := (i : ℤ) - 1
  let s : Option ℤ :=
    if memIdx mask x = false ∧ memIdx mask (x + 1) = true then some (conv (x + 1)) else st.2
  if memIdx mask x = true ∧ memIdx mask (x + 1) = false then (st.1 ++ [(s, conv x)], s)
  else (st.1, s)

/-- The sentinel-based scan `for x in range(-1, len(mask))` from the source:
iterate the loop body over `x = -1, 0, ..., len(mask) - 1` (the counter of the
fold is `x + 1`) starting from the empty list and `start = None`. -/
def sentinelScan (conv : ℤ → ℤ) (mask : List Bool) : List (Option ℤ × ℤ) :=
  ((List.range (mask.length + 1)).foldl (scanStep conv mask) ([], none)).1

/-- Structural-recursion companion of the scan: `runsFrom t i prev s` processes
the mask suffix `t` starting at absolute index `i`, where `prev` is the mask
value at `i - 1` (false for `i = 0`) and `s` is the stored start index (stale
when `prev` is false, exactly like the Python `start` variable). -/
def runsFrom : List Bool → ℕ → Bool → ℕ → List (ℕ × ℕ)
  | [], i, prev, s => if prev then [(s, i - 1)] else []
  | true :: t, i, true, s => runsFrom t (i + 1) true s
  | false :: t, i, true, s => (s, i - 1) :: runsFrom t (i + 1) false s
  | true :: t, i, false, _ => runsFrom t (i + 1) true i
  | false :: t, i, false, s => runsFrom t (i + 1) false s

/-- The pair `(a, b)` is a maximal contiguous run of `true` values of `mask`:
all indices from `a` to `b` inclusive are true, the index before `a` (if any)
is false, and the index after `b` is false or out of range. -/
def IsMaxRun (mask : List Bool) (a b : ℕ) : Prop :=
  a ≤ b ∧ b < mask.length ∧ (∀ j, a ≤ j → j ≤ b → maskGet mask j = true) ∧
    (a = 0 ∨ maskGet mask (a - 1) = false) ∧ maskGet mask (b + 1) = false

theorem maskGet_of_le (l : List Bool) (i : ℕ) (h : l.length ≤ i) :
    maskGet l i = false :=
  List.getD_eq_default l false h

theorem memIdx_natCast (l : List Bool) (i : ℕ) : memIdx l (i : ℤ) = maskGet l i := by
  simp [memIdx]

theorem drop_nil_le (l : List Bool) (i : ℕ) (h : l.drop i = []) : l.length ≤ i := by
  have := List.length_drop i l
  rw [h] at this
  simp at this
  omega

theorem drop_cons_getD (l : List Bool) :
    ∀ (i : ℕ) (b : Bool) (t : List Bool), l.drop i = b :: t → l.getD i false = b := by
  induction l with
  | nil => intro i b t h; simp at h
  | cons hd tl ih =>
    intro i b t h
    cases i with
    | zero => simp at h ⊢; exact h.1
    | succ n =>
      simp only [List.drop_succ_cons] at h
      simpa using ih n b t h

theorem drop_cons_drop (l : List Bool) :
    ∀ (i : ℕ) (b : Bool) (t : List Bool), l.drop i = b :: t → l.drop (i + 1) = t := by
  induction l with
  | nil => intro i b t h; simp at h
  | cons hd tl ih =>
    intro i b t h
    cases i with
    | zero => simp at h ⊢; exact h.2
    | succ n =>
      simp only [List.drop_succ_cons] at h ⊢
      exact ih n b t h

theorem drop_cons_lt (l : List Bool) (i : ℕ) (b : Bool) (t : List Bool)
    (h : l.drop i = b :: t) : i < l.length := by
  by_contra hcon
  rw [List.drop_eq_nil_of_le (by omega)] at h
  simp at h

theorem maskGet_of_drop (l : List Bool) (i : ℕ) (b : Bool) (t : List Bool)
    (h : l.drop i = b :: t) : maskGet l i = b :=
  drop_cons_getD l i b t h

/-- Bridge between the imperative sentinel scan of the source and the
structural recursion `runsFrom`. -/
theorem foldl_scan_eq (conv : ℤ → ℤ) (mask : List Bool) :
    ∀ (t : List Bool) (i : ℕ) (acc : List (Option ℤ × ℤ)) (sp : Option ℤ) (s : ℕ),
      mask.drop i = t →
      (memIdx mask ((i : ℤ) - 1) = true → sp = some (conv (s : ℤ)) ∧ 1 ≤ i) →
      ((List.range' i (t.length + 1)).foldl (scanStep conv mask) (acc, sp)).1 =
        acc ++ (runsFrom t i (memIdx mask ((i : ℤ) - 1)) s).map
          (fun p => (some (conv (p.1 : ℤ)), conv (p.2 : ℤ))) := by
  intro t
  induction t with
  | nil =>
    intro i acc sp s hdrop hinv
    have hle : mask.length ≤ i := drop_nil_le mask i hdrop
    have hx1 : ((i : ℤ) - 1) + 1 = (i : ℤ) := by ring
    have hmi : memIdx mask ((i : ℤ)) = false := by
      rw [memIdx_natCast]; exact maskGet_of_le mask i hle
    simp only [List.length_nil, Nat.zero_add, List.range'_one, List.foldl_cons,
      List.foldl_nil, scanStep, hx1, hmi]
    cases hprev : memIdx mask ((i : ℤ) - 1) with
    | false => simp [runsFrom]
    | true =>
      obtain ⟨hsp, hi1⟩ := hinv hprev
      have hcast : ((i - 1 : ℕ) : ℤ) = (i : ℤ) - 1 := by omega
      simp [runsFrom, hsp, hcast]
  | cons b t ih =>
    intro i acc sp s hdrop hinv
    have hmaski : maskGet mask i = b := maskGet_of_drop mask i b t hdrop
    have hdrop' : mask.drop (i + 1) = t := drop_cons_drop mask i b t hdrop
    have hx1 : ((i : ℤ) - 1) + 1 = (i : ℤ) := by ring
    have hmemi : memIdx mask ((i : ℤ)) = b := by rw [memIdx_natCast]; exact hmaski
    have hcast1 : ((i + 1 : ℕ) : ℤ) - 1 = (i : ℤ) := by push_cast; ring
    simp only [List.length_cons]
    rw [List.range'_succ i (t.length + 1) 1, List.foldl_cons]
    cases hprev : memIdx mask ((i : ℤ) - 1) with
    | true =>
      obtain ⟨hsp, hi1⟩ := hinv hprev
      have hcast2 : ((i - 1 : ℕ) : ℤ) = (i : ℤ) - 1 := by omega
      cases b with
      | true =>
        have hstep : scanStep conv mask (acc, sp) i = (acc, sp) := by
          simp [scanStep, hx1, hprev, hmemi]
        rw [hstep]
        have h2 := ih (i + 1) acc sp s hdrop'
          (by rw [hcast1, hmemi]; intro _; exact ⟨hsp, by omega⟩)
        rw [hcast1, hmemi] at h2
        rw [h2]
        simp [runsFrom]
      | false =>
        have hstep : scanStep conv mask (acc, sp) i =
            (acc ++ [(sp, conv ((i : ℤ) - 1))], sp) := by
          simp [scanStep, hx1, hprev, hmemi]
        rw [hstep]
        have h2 := ih (i + 1) (acc ++ [(sp, conv ((i : ℤ) - 1))]) sp s hdrop'
          (by rw [hcast1, hmemi]; intro hcon; simp at hcon)
        rw [hcast1, hmemi] at h2
        rw [h2]
        simp [runsFrom, hsp, hcast2]
    | false =>
      cases b with
      | true =>
        have hstep : scanStep conv mask (acc, sp) i = (acc, some (conv ((i : ℤ) - 1 + 1))) := by
          simp [scanStep, hprev, hx1, hmemi]
        rw [hstep]
        have h2 := ih (i + 1) acc (some (conv ((i : ℤ) - 1 + 1))) i hdrop'
          (by rw [hcast1, hmemi]; intro _; constructor
              · rw [hx1]
              · omega)
        rw [hcast1, hmemi] at h2
        rw [h2]
        simp [runsFrom]
      | false =>
        have hstep : scanStep conv mask (acc, sp) i = (acc, sp) := by
          simp [scanStep, hprev, hx1, hmemi]
        rw [hstep]
        have h2 := ih (i + 1) acc sp s hdrop'
          (by rw [hcast1, hmemi]; intro hcon; simp at hcon)
        rw [hcast1, hmemi] at h2
        rw [h2]
        simp [runsFrom]

/-- The sentinel scan computes exactly the run list of `runsFrom` started in
the initial state, every stored start being present (never `None`). -/
theorem sentinelScan_eq (conv : ℤ → ℤ) (mask : List Bool) :
    sentinelScan conv mask = (runsFrom mask 0 false 0).map
      (fun p => (some (conv (p.1 : ℤ)), conv (p.2 : ℤ))) := by
  have hm : memIdx mask ((0 : ℕ) - 1 : ℤ) = false := by
    simp [memIdx]
  have h := foldl_scan_eq conv mask mask 0 [] none 0 (by simp)
    (by rw [hm]; intro hcon; simp at hcon)
  rw [hm] at h
  simpa [sentinelScan, List.range_eq_range' (mask.length + 1)] using h

/-- Two maximal runs with the same last index have the same first index. -/
theorem isMaxRun_start_eq (mask : List Bool) (a a2 e : ℕ)
    (h1 : IsMaxRun mask a e) (h2 : IsMaxRun mask a2 e) : a = a2 := by
  obtain ⟨hae, _, hall1, hleft1, _⟩ := h1
  obtain ⟨hae2, _, hall2, hleft2, _⟩ := h2
  by_contra hne
  rcases Nat.lt_or_ge a a2 with h | h
  · rcases hleft2 with h0 | hfalse
    · omega
    · have htrue : maskGet mask (a2 - 1) = true := hall1 (a2 - 1) (by omega) (by omega)
      rw [htrue] at hfalse
      simp at hfalse
  · rcases Nat.lt_or_ge a2 a with h' | h'
    · rcases hleft1 with h0 | hfalse
      · omega
      · have htrue : maskGet mask (a - 1) = true := hall2 (a - 1) (by omega) (by omega)
        rw [htrue] at hfalse
        simp at hfalse
    · omega

/-- Membership characterization of `runsFrom`: under the loop invariants, the
pairs produced from position `i` are exactly the maximal runs of the whole
mask whose last index is at least `i - 1`. -/
theorem runsFrom_mem (mask : List Bool) :
    ∀ (t : List Bool) (i : ℕ) (prev : Bool) (s : ℕ),
      mask.drop i = t →
      (prev = true → s < i ∧ (∀ j, s ≤ j → j < i → maskGet mask j = true) ∧
        (s = 0 ∨ maskGet mask (s - 1) = false)) →
      (prev = false → ∀ j : ℕ, j + 1 = i → maskGet mask j = false) →
      ∀ a b : ℕ, ((a, b) ∈ runsFrom t i prev s ↔ IsMaxRun mask a b ∧ i ≤ b + 1) := by
  intro t
  induction t with
  | nil =>
    intro i prev s hdrop hprevT hprevF a b
    have hlen : mask.length ≤ i := drop_nil_le mask i hdrop
    cases prev with
    | false =>
      rw [runsFrom]
      simp only [if_neg (by simp : ¬ (false = true)), List.not_mem_nil, false_iff]
      rintro ⟨⟨hab, hblen, hall, _, _⟩, hib⟩
      have hji : b + 1 = i := by omega
      have htrue : maskGet mask b = true := hall b hab le_rfl
      have hfalse := hprevF rfl b hji
      rw [htrue] at hfalse
      simp at hfalse
    | true =>
      obtain ⟨hsi, hall, hleft⟩ := hprevT rfl
      have hi1 : 1 ≤ i := by omega
      have hm1 : maskGet mask (i - 1) = true := hall (i - 1) (by omega) (by omega)
      have hi1lt : i - 1 < mask.length := by
        by_contra hcon
        rw [maskGet_of_le mask (i - 1) (by omega)] at hm1
        simp at hm1
      have hleni : mask.length = i := by omega
      have hrun : IsMaxRun mask s (i - 1) := by
        refine ⟨by omega, by omega, ?_, hleft, ?_⟩
        · intro j hj1 hj2
          exact hall j hj1 (by omega)
        · have heq : i - 1 + 1 = i := by omega
          rw [heq]
          exact maskGet_of_le mask i (by omega)
      have hrw : runsFrom [] i true s = [(s, i - 1)] := by simp [runsFrom]
      rw [hrw]
      simp only [List.mem_singleton, Prod.mk.injEq]
      constructor
      · rintro ⟨ha, hb⟩
        subst ha; subst hb
        exact ⟨hrun, by omega⟩
      · rintro ⟨hmr, hib⟩
        have hb : b = i - 1 := by
          obtain ⟨_, hblen, _, _, _⟩ := hmr
          omega
        subst hb
        exact ⟨isMaxRun_start_eq mask a s (i - 1) hmr hrun, rfl⟩
  | cons bb tt ih =>
    intro i prev s hdrop hprevT hprevF a b
    have hmaski : maskGet mask i = bb := maskGet_of_drop mask i bb tt hdrop
    have hdrop' : mask.drop (i + 1) = tt := drop_cons_drop mask i bb tt hdrop
    have hilen : i < mask.length := drop_cons_lt mask i bb tt hdrop
    cases prev with
    | true =>
      obtain ⟨hsi, hall, hleft⟩ := hprevT rfl
      cases bb with
      | true =>
        rw [runsFrom]
        rw [ih (i + 1) true s hdrop'
          (by intro _
              refine ⟨by omega, ?_, hleft⟩
              intro j hj1 hj2
              rcases Nat.lt_or_ge j i with hji | hji
              · exact hall j hj1 hji
              · have : j = i := by omega
                rw [this]; exact hmaski)
          (by intro hcon; simp at hcon)]
        constructor
        · rintro ⟨hmr, hib⟩
          exact ⟨hmr, by omega⟩
        · rintro ⟨hmr, hib⟩
          refine ⟨hmr, ?_⟩
          have hne : b + 1 ≠ i := by
            intro he
            obtain ⟨_, _, _, _, hnext⟩ := hmr
            rw [he, hmaski] at hnext
            simp at hnext
          omega
      | false =>
        have hi1 : 1 ≤ i := by omega
        have hrun : IsMaxRun mask s (i - 1) := by
          refine ⟨by omega, by omega, ?_, hleft, ?_⟩
          · intro j hj1 hj2
            exact hall j hj1 (by omega)
          · have heq : i - 1 + 1 = i := by omega
            rw [heq]; exact hmaski
        rw [runsFrom]
        simp only [List.mem_cons, Prod.mk.injEq]
        rw [ih (i + 1) false s hdrop'
          (by intro hcon; simp at hcon)
          (by intro _ j hj
              have : j = i := by omega
              rw [this]; exact hmaski)]
        constructor
        · rintro (⟨ha, hb⟩ | ⟨hmr, hib⟩)
          · subst ha; subst hb
            exact ⟨hrun, by omega⟩
          · exact ⟨hmr, by omega⟩
        · rintro ⟨hmr, hib⟩
          rcases Nat.lt_or_ge b i with hbi | hbi
          · left
            have hb : b = i - 1 := by omega
            subst hb
            exact ⟨isMaxRun_start_eq mask a s (i - 1) hmr hrun, rfl⟩
          · right
            refine ⟨hmr, ?_⟩
            have hne : b ≠ i := by
              intro he
              obtain ⟨hab, _, hallr, _, _⟩ := hmr
              have := hallr b (by omega) le_rfl
              rw [he, hmaski] at this
              simp at this
            omega
    | false =>
      cases bb with
      | true =>
        rw [runsFrom]
        rw [ih (i + 1) true i hdrop'
          (by intro _
              refine ⟨by omega, ?_, ?_⟩
              · intro j hj1 hj2
                have : j = i := by omega
                rw [this]; exact hmaski
              · rcases Nat.eq_zero_or_pos i with h0 | hpos
                · left; exact h0
                · right; exact hprevF rfl (i - 1) (by omega))
          (by intro hcon; simp at hcon)]
        constructor
        · rintro ⟨hmr, hib⟩
          exact ⟨hmr, by omega⟩
        · rintro ⟨hmr, hib⟩
          refine ⟨hmr, ?_⟩
          have hne : b + 1 ≠ i := by
            intro he
            obtain ⟨hab, _, hallr, _, _⟩ := hmr
            have htrue := hallr b (by omega) le_rfl
            have hfalse := hprevF rfl b he
            rw [htrue] at hfalse
            simp at hfalse
          omega
      | false =>
        rw [runsFrom]
        rw [ih (i + 1) false s hdrop'
          (by intro hcon; simp at hcon)
          (by intro _ j hj
              have : j = i := by omega
              rw [this]; exact hmaski)]
        constructor
        · rintro ⟨hmr, hib⟩
          exact ⟨hmr, by omega⟩
        · rintro ⟨hmr, hib⟩
          refine ⟨hmr, ?_⟩
          have hne : b + 1 ≠ i := by
            intro he
            obtain ⟨hab, _, hallr, _, _⟩ := hmr
            have htrue := hallr b (by omega) le_rfl
            have hfalse := hprevF rfl b he
            rw [htrue] at hfalse
            simp at hfalse
          omega

/-- Under the loop invariants the run list is strictly ordered: each emitted
run ends strictly before the next one starts, with a gap of at least one
false frame. -/
theorem runsFrom_pairwise (mask : List Bool) :
    ∀ (t : List Bool) (i : ℕ) (prev : Bool) (s : ℕ),
      mask.drop i = t →
      (prev = true → s < i ∧ (∀ j, s ≤ j → j < i → maskGet mask j = true) ∧
        (s = 0 ∨ maskGet mask (s - 1) = false)) →
      (prev = false → ∀ j : ℕ, j + 1 = i → maskGet mask j = false) →
      List.Pairwise (fun p q : ℕ × ℕ => p.2 + 1 < q.1) (runsFrom t i prev s) := by
  intro t
  induction t with
  | nil =>
    intro i prev s hdrop hprevT hprevF
    cases prev with
    | false =>
      have hrw : runsFrom [] i false s = [] := by simp [runsFrom]
      rw [hrw]
      exact List.Pairwise.nil
    | true =>
      have hrw : runsFrom [] i true s = [(s, i - 1)] := by simp [runsFrom]
      rw [hrw]
      exact List.pairwise_singleton _ _
  | cons bb tt ih =>
    intro i prev s hdrop hprevT hprevF
    have hmaski : maskGet mask i = bb := maskGet_of_drop mask i bb tt hdrop
    have hdrop' : mask.drop (i + 1) = tt := drop_cons_drop mask i bb tt hdrop
    cases prev with
    | true =>
      obtain ⟨hsi, hall, hleft⟩ := hprevT rfl
      cases bb with
      | true =>
        rw [runsFrom]
        exact ih (i + 1) true s hdrop'
          (by intro _
              refine ⟨by omega, ?_, hleft⟩
              intro j hj1 hj2
              rcases Nat.lt_or_ge j i with hji | hji
              · exact hall j hj1 hji
              · have : j = i := by omega
                rw [this]; exact hmaski)
          (by intro hcon; simp at hcon)
      | false =>
        have hinvF : ∀ j : ℕ, j + 1 = i + 1 → maskGet mask j = false := by
          intro j hj
          have : j = i := by omega
          rw [this]; exact hmaski
        rw [runsFrom]
        rw [List.pairwise_cons]
        constructor
        · intro q hq
          have hmem := (runsFrom_mem mask tt (i + 1) false s hdrop'
            (by intro hcon; simp at hcon) (by intro _; exact hinvF) q.1 q.2).1
            (by rw [Prod.mk.eta] at *; exact hq)
          obtain ⟨⟨hab, _, hallr, _, _⟩, hib⟩ := hmem
          have hq1 : i + 1 ≤ q.1 := by
            by_contra hcon
            have htrue := hallr i (by omega) (by omega)
            rw [hmaski] at htrue
            simp at htrue
          have hi1 : 1 ≤ i := by omega
          omega
        · exact ih (i + 1) false s hdrop'
            (by intro hcon; simp at hcon) (by intro _; exact hinvF)
    | false =>
      cases bb with
      | true =>
        rw [runsFrom]
        exact ih (i + 1) true i hdrop'
          (by intro _
              refine ⟨by omega, ?_, ?_⟩
              · intro j hj1 hj2
                have : j = i := by omega
                rw [this]; exact hmaski
              · rcases Nat.eq_zero_or_pos i with h0 | hpos
                · left; exact h0
                · right; exact hprevF rfl (i - 1) (by omega))
          (by intro hcon; simp at hcon)
      | false =>
        rw [runsFrom]
        exact ih (i + 1) false s hdrop'
          (by intro hcon; simp at hcon)
          (by intro _ j hj
              have : j = i := by omega
              rw [this]; exact hmaski)

/-- The list of runs of a mask, as computed by the scan loop of the source. -/
def runs (mask : List Bool) : List (ℕ × ℕ) := runsFrom mask 0 false 0

theorem runs_mem_iff (mask : List Bool) (a b : ℕ) :
    ((a, b) ∈ runs mask) ↔ IsMaxRun mask a b := by
  have h := runsFrom_mem mask mask 0 false 0 (by simp)
    (by intro hcon; simp at hcon) (by intro _ j hj; omega) a b
  rw [runs, h]
  constructor
  · exact fun hp => hp.1
  · exact fun hp => ⟨hp, by omega⟩

theorem runs_pairwise (mask : List Bool) :
    List.Pairwise (fun p q : ℕ × ℕ => p.2 + 1 < q.1) (runs mask) :=
  runsFrom_pairwise mask mask 0 false 0 (by simp)
    (by intro hcon; simp at hcon) (by intro _ j hj; omega)

/-- C1: for every boolean mask, the sentinel-based scan (the loop over
`x in range(-1, len(mask))` used by `MelVad.get_nosil_endpoints` and
`SigVad._get_sil_endpoints`) emits exactly the maximal contiguous runs of true
values, each reported as an inclusive pair whose components are the first and
last true index of the run (stored through the conversion `conv`), in strictly
increasing order of start, including runs touching either boundary, before any
degenerate-run filtering. -/
theorem claim_c1_scan_emits_maximal_runs (conv : ℤ → ℤ) (mask : List Bool) :
    ∃ L : List (ℕ × ℕ),
      sentinelScan conv mask = L.map (fun p => (some (conv (p.1 : ℤ)), conv (p.2 : ℤ))) ∧
      (∀ a b : ℕ, ((a, b) ∈ L) ↔ IsMaxRun mask a b) ∧
      List.Pairwise (fun p q : ℕ × ℕ => p.1 < q.1 ∧ p.2 + 1 < q.1) L := by
  refine ⟨runs mask, sentinelScan_eq conv mask, runs_mem_iff mask, ?_⟩
  refine (runs_pairwise mask).imp_of_mem ?_
  intro p q hp hq hlt
  obtain ⟨a, b⟩ := p
  have hmr := (runs_mem_iff mask a b).1 hp
  exact ⟨by have := hmr.1; simp at hlt ⊢; omega, hlt⟩

/-- Python truthiness of the optional `self._global_ref_db` configuration
value, as used by `assert (self._global_ref_db or not using_global_ref)`:
`None` and `0` are falsy, any other number is truthy. -/
def truthy : Option ℚ → Bool
  | none => false
  | some q => decide (q ≠ 0)

/-- The size `np.shape(mels)[-1]` of the last dimension of a rectangular
(frame x band) matrix given as a list of rows; for an empty matrix the shape
is `(0,)` and its last entry is `0`. -/
def lastDim (mels : List (List ℚ)) : ℕ :=
  match mels with
  | [] => 0
  | r :: _ => r.length

/-- Total version of `np.max` on a nonempty list (the value it returns when it
does not raise). -/
def npMaxD : List ℚ → ℚ
  | [] => 0
  | h :: t => t.foldl max h

/-- `np.max`, which raises on an empty array. -/
def npMax : List ℚ → Option ℚ
  | [] => none
  | h :: t => some (npMaxD (h :: t))

/-- The `amin = 1e-10` floor used by `librosa.power_to_db`. -/
def amin : ℚ := 1 / 10 ^ 10

/-- `librosa.power_to_db(S, ref=ref_value, top_db=None)` for a scalar
reference value: `10 * log10(maximum(amin, abs(S))) - 10 * log10(maximum(amin,
ref_value))` elementwise, with no top clipping since the source always passes
`top_db=None`.  The base-10 logarithm is the abstract parameter `log10`. -/
def power_to_db (log10 : ℚ → ℚ) (S : List ℚ) (ref_value : ℚ) : List ℚ :=
  S.map (fun s => 10 * log10 (max amin |s|) - 10 * log10 (max amin ref_value))

/-- `np.clip(x, lo, hi)`. -/
def np_clip (x lo hi : ℚ) : ℚ := min hi (max lo x)

/-- The fixed `ref_level_db = 20` constant of `MelVad._get_mel_power`. -/
def ref_level_db : ℚ := 20

/-- The fixed `min_level_db = -100` constant of `MelVad._get_mel_power`. -/
def min_level_db : ℚ := -100

/-- The numpy pipeline of `MelVad._get_mel_power` after its shape assert:
`mels = np.clip(mels, 0, 1) * (-min_level_db) + min_level_db`, then
`mel_amp = np.power(10.0, (mels + ref_level_db) * 0.05)`, then
`mel_amp = np.sum(mel_amp, axis=1)`.  The power `10.0 ** y` is the abstract
parameter `pow10`. -/
def get_mel_power_core (pow10 : ℚ → ℚ) (mels : List (List ℚ)) : List ℚ :=
  ((mels.map (fun row => row.map (fun x => np_clip x 0 1 * (-min_level_db) + min_level_db))).map
    (fun row => row.map (fun v => pow10 ((v + ref_level_db) * (0.05 : ℚ))))).map List.sum

/-- `MelVad._get_mel_power` (vad.py lines 83-91): asserts that the last
feature dimension is 80, then runs the conversion pipeline. -/
def get_mel_power (pow10 : ℚ → ℚ) (mels : List (List ℚ)) : Option (List ℚ) :=
  if lastDim mels = 80 then some (get_mel_power_core pow10 mels) else none

/-- The boolean speech mask `db > -top_db` (from
`np.where(mel_db > -self._top_db)[0]` and the `"nosil"` branch of
`SigVad._get_sil_endpoints`). -/
def speechMask (db : List ℚ) (top_db : ℚ) : List Bool :=
  db.map (fun d => decide (-top_db < d))

/-- The boolean silence mask `db < -top_db` (the `"sil"` branch of
`SigVad._get_sil_endpoints`). -/
def silMask (db : List ℚ) (top_db : ℚ) : List Bool :=
  db.map (fun d => decide (d < -top_db))

/-- Unpacking `for _s, _e in endpoints` in the final list comprehension of
both scan methods: a `None` start would make the comprehension raise a
`TypeError` at `_e - _s`, which is modelled as `none`. -/
def collectRuns : List (Option ℤ × ℤ) → Option (List (ℤ × ℤ))
  | [] => some []
  | (none, _) :: _ => none
  | (some s, e) :: rest => (collectRuns rest).map (fun l => (s, e) :: l)

/-- The shared tail of both scan methods: run the sentinel scan, then keep
only the pairs with `_e - _s > 1` (vad.py lines 79 and 153). -/
def endpointScan (conv : ℤ → ℤ) (mask : List Bool) : Option (List (ℤ × ℤ)) :=
  (collectRuns (sentinelScan conv mask)).map
    (fun l => l.filter (fun p => decide (1 < p.2 - p.1)))

/-- `MelVad.get_vad_label` (vad.py lines 30-41): assert the reference
configuration and the band count, compute the per-frame power, pick the
reference (the configured global one or the local maximum), convert to
decibels and compare the first frame against `-top_db`. -/
def get_vad_label (log10 pow10 : ℚ → ℚ) (global_ref_db : Option ℚ) (top_db : ℚ)
    (mels : List (List ℚ)) (using_global_ref : Bool) : Option Bool :=
  if truthy global_ref_db || !using_global_ref then
    if lastDim mels = 80 then
      match get_mel_power pow10 mels with
      | none => none
      | some mel_amp =>
        match (if using_global_ref then global_ref_db else npMax mel_amp) with
        | none => none
        | some ref =>
          match power_to_db log10 mel_amp |ref| with
          | [] => none
          | d :: _ => some (decide (-top_db < d))
    else none
  else none

/-- `MelVad.get_nosil_endpoints` (vad.py lines 43-80): same asserts and
decibel computation as `get_vad_label`, then the sentinel scan over the
speech mask with the identity index conversion, then the `_e - _s > 1`
filter. -/
def get_nosil_endpoints (log10 pow10 : ℚ → ℚ) (global_ref_db : Option ℚ) (top_db : ℚ)
    (mels : List (List ℚ)) (using_global_ref : Bool) : Option (List (ℤ × ℤ)) :=
  if truthy global_ref_db || !using_global_ref then
    if lastDim mels = 80 then
      match get_mel_power pow10 mels with
      | none => none
      | some mel_amp =>
        match (if using_global_ref then global_ref_db else npMax mel_amp) with
        | none => none
        | some ref =>
          endpointScan (fun z => z)
            (speechMask (power_to_db log10 mel_amp |ref|) top_db)
    else none
  else none

/-- The `ref` configuration of `SigVad`: either the default callable `np.max`
or a fixed scalar. -/
inductive RefMode where
  | npmax : RefMode
  | fixed : ℚ → RefMode

/-- The reference value used by `librosa.power_to_db`: a callable reference is
applied to the magnitude array (raising on an empty array, like `np.max`), a
scalar reference is replaced by its absolute value. -/
def refValue (mode : RefMode) (S : List ℚ) : Option ℚ :=
  match mode with
  | RefMode.npmax => npMax S
  | RefMode.fixed v => some |v|

/-- `SigVad._get_sil_endpoints` (vad.py lines 121-154) from the squared rms
profile `mse` of the signal on: convert to decibels against the configured
reference, threshold according to `sil_type` (raising on an unrecognized
value), run the sentinel scan storing `librosa.frames_to_samples(x, hop)`
= `x * hop_length`, and keep the pairs with `_e - _s > 1`. -/
def get_sil_endpoints (log10 : ℚ → ℚ) (top_db : ℚ) (hop_length : ℤ) (ref : RefMode)
    (mse : List ℚ) (sil_type : String) : Option (List (ℤ × ℤ)) :=
  match refValue ref mse with
  | none => none
  | some rv =>
    let signal_db := power_to_db log10 mse rv
    if sil_type = "sil" then
      endpointScan (fun z => z * hop_length) (silMask signal_db top_db)
    else if sil_type = "nosil" then
      endpointScan (fun z => z * hop_length) (speechMask signal_db top_db)
    else none

/-- `SigVad._sil_to_nosil` (vad.py lines 187-197): complement of a silence
interval list over `[0, dur]`.  Indexing `sil_data[0]` on an empty list
raises, which is modelled as `none`. -/
def sil_to_nosil (sil_data : List (ℚ × ℚ)) (dur : ℚ) : Option (List (ℚ × ℚ)) :=
  match sil_data with
  | [] => none
  | first :: _ =>
    let lead : List (ℚ × ℚ) := if (0.001 : ℚ) < first.1 then [(0, first.1)] else []
    let mids : List (ℚ × ℚ) := (List.range (sil_data.length - 1)).map
      (fun idx => ((sil_data.getD idx (0, 0)).2, (sil_data.getD (idx + 1) (0, 0)).1))
    let lastp := sil_data.getLastD (0, 0)
    let trail : List (ℚ × ℚ) := if (0.001 : ℚ) < dur - lastp.2 then [(lastp.2, dur)] else []
    some (lead ++ mids ++ trail)

/-- The silence list of `SigVad.get_speech_endpoint` (vad.py lines 178-180):
silence endpoints in samples, kept when `e - s > sr * min_sil_dur` and
converted to seconds by dividing by the sample rate. -/
def filteredSil (log10 : ℚ → ℚ) (top_db : ℚ) (hop_length : ℤ) (ref : RefMode)
    (sr : ℚ) (mse : List ℚ) (min_sil_dur : ℚ) : Option (List (ℚ × ℚ)) :=
  (get_sil_endpoints log10 top_db hop_length ref mse "sil").map
    (fun l => (l.filter (fun p => decide (sr * min_sil_dur < (p.2 : ℚ) - (p.1 : ℚ)))).map
      (fun p => ((p.1 : ℚ) / sr, (p.2 : ℚ) / sr)))

/-- `SigVad.get_speech_endpoint` (vad.py lines 156-185) in the
`signal`/`sr` branch: the signal is represented by its length `signal_len`
(for `dur = len(signal) / sr`) and its externally computed squared rms
profile `mse`.  If no silence interval survives the filter the whole clip is
returned as one speech interval; otherwise the complement is computed and
filtered by `e - s > min_nosil_dur`. -/
def get_speech_endpoint (log10 : ℚ → ℚ) (top_db : ℚ) (hop_length : ℤ) (ref : RefMode)
    (signal_len : ℕ) (sr : ℚ) (mse : List ℚ) (min_sil_dur min_nosil_dur : ℚ) :
    Option (List (ℚ × ℚ)) :=
  let dur : ℚ := (signal_len : ℚ) / sr
  match filteredSil log10 top_db hop_length ref sr mse min_sil_dur with
  | none => none
  | some sil_data =>
    if sil_data.length = 0 then some [(0, dur)]
    else
      match sil_to_nosil sil_data dur with
      | none => none
      | some nosil_data =>
        some (nosil_data.filter (fun p => decide (min_nosil_dur < p.2 - p.1)))

theorem collectRuns_map (conv : ℤ → ℤ) (L : List (ℕ × ℕ)) :
    collectRuns (L.map (fun p => (some (conv (p.1 : ℤ)), conv (p.2 : ℤ)))) =
      some (L.map (fun p => (conv (p.1 : ℤ), conv (p.2 : ℤ)))) := by
  induction L with
  | nil => rfl
  | cons p rest ih => simp [collectRuns, ih]

/-- The shared scan-and-filter tail evaluates to the filtered list of scaled
maximal runs and never fails. -/
theorem endpointScan_eq (conv : ℤ → ℤ) (mask : List Bool) :
    endpointScan conv mask = some
      (((runs mask).map (fun p => (conv (p.1 : ℤ), conv (p.2 : ℤ)))).filter
        (fun p => decide (1 < p.2 - p.1))) := by
  rw [endpointScan, sentinelScan_eq conv mask]
  rw [show runsFrom mask 0 false 0 = runs mask from rfl]
  rw [collectRuns_map conv (runs mask)]
  rfl

theorem endpointScan_mem (conv : ℤ → ℤ) (mask : List Bool) (l : List (ℤ × ℤ))
    (h : endpointScan conv mask = some l) (s e : ℤ) :
    ((s, e) ∈ l ↔ ∃ a b : ℕ, IsMaxRun mask a b ∧ s = conv (a : ℤ) ∧ e = conv (b : ℤ) ∧
      1 < e - s) := by
  rw [endpointScan_eq conv mask] at h
  have hl := Option.some.inj h
  subst hl
  simp only [List.mem_filter, List.mem_map, decide_eq_true_eq]
  constructor
  · rintro ⟨⟨⟨a, b⟩, hmem, heq⟩, hgt⟩
    have hmr := (runs_mem_iff mask a b).1 hmem
    refine ⟨a, b, hmr, ?_, ?_, hgt⟩
    · exact (congrArg Prod.fst heq).symm
    · exact (congrArg Prod.snd heq).symm
  · rintro ⟨a, b, hmr, hs, he, hgt⟩
    subst hs; subst he
    exact ⟨⟨(a, b), (runs_mem_iff mask a b).2 hmr, rfl⟩, hgt⟩

/-- Reference definition of the feature-to-power conversion, following the
specification text: `clipped = clip(x, 0, 1) * (-minLevelDb) + minLevelDb`
with `minLevelDb = -100`, `amplitude = 10 ** ((clipped + refLevelDb) * 0.05)`
with `refLevelDb = 20`, and the per-frame sum of the amplitudes across the
band dimension. -/
def featureToPowerSpec (pow10 : ℚ → ℚ) (mels : List (List ℚ)) : List ℚ :=
  mels.map (fun frame =>
    (frame.map (fun x =>
      pow10 ((np_clip x 0 1 * (-min_level_db) + min_level_db + ref_level_db) * (0.05 : ℚ)))).sum)

/-- C6: for every feature matrix (nonempty and rectangular with 80 bands per
frame so that the shape assert passes), the feature-to-power conversion of the
source equals the reference definition from the specification. -/
theorem claim_c6_feature_to_power (pow10 : ℚ → ℚ) (mels : List (List ℚ))
    (hne : mels ≠ []) (hdim : ∀ row ∈ mels, row.length = 80) :
    get_mel_power pow10 mels = some (featureToPowerSpec pow10 mels) := by
  have hlast : lastDim mels = 80 := by
    cases mels with
    | nil => exact absurd rfl hne
    | cons r rest => exact hdim r (List.mem_cons_self r rest)
  rw [get_mel_power, if_pos hlast]
  rw [get_mel_power_core, featureToPowerSpec]
  simp only [List.map_map]
  apply congrArg some
  apply List.map_congr_left
  intro frame _
  simp only [Function.comp]
  rw [List.map_map]
  apply congrArg List.sum
  apply List.map_congr_left
  intro x _
  simp only [Function.comp]

/-- C6 witness at a concrete matrix. -/
theorem claim_c6_feature_to_power_witness :
    get_mel_power id [List.replicate 80 (1 / 2 : ℚ)] =
      some (featureToPowerSpec id [List.replicate 80 (1 / 2 : ℚ)]) :=
  claim_c6_feature_to_power id [List.replicate 80 (1 / 2 : ℚ)] (by simp)
    (by intro row hrow; simp at hrow; rw [hrow]; simp)

/-- C7: precondition violations fail loudly with no result: missing global
reference in global mode and wrong band count for the two `MelVad` methods,
and an unrecognized `sil_type` for `SigVad._get_sil_endpoints`. -/
theorem claim_c7_precondition_failures :
    (∀ (log10 pow10 : ℚ → ℚ) (top_db : ℚ) (mels : List (List ℚ)),
      get_vad_label log10 pow10 none top_db mels true = none ∧
      get_nosil_endpoints log10 pow10 none top_db mels true = none) ∧
    (∀ (log10 pow10 : ℚ → ℚ) (gref : Option ℚ) (top_db : ℚ) (mels : List (List ℚ))
      (ug : Bool), lastDim mels ≠ 80 →
      get_vad_label log10 pow10 gref top_db mels ug = none ∧
      get_nosil_endpoints log10 pow10 gref top_db mels ug = none) ∧
    (∀ (log10 : ℚ → ℚ) (top_db : ℚ) (hop : ℤ) (ref : RefMode) (mse : List ℚ)
      (st : String), st ≠ "sil" → st ≠ "nosil" →
      get_sil_endpoints log10 top_db hop ref mse st = none) := by
  refine ⟨?_, ?_, ?_⟩
  · intro log10 pow10 top_db mels
    constructor
    · simp [get_vad_label, truthy]
    · simp [get_nosil_endpoints, truthy]
  · intro log10 pow10 gref top_db mels ug hdim
    constructor
    · rw [get_vad_label]
      by_cases hg : (truthy gref || !ug) = true
      · rw [if_pos hg, if_neg hdim]
      · rw [if_neg hg]
    · rw [get_nosil_endpoints]
      by_cases hg : (truthy gref || !ug) = true
      · rw [if_pos hg, if_neg hdim]
      · rw [if_neg hg]
  · intro log10 top_db hop ref mse st h1 h2
    rw [get_sil_endpoints]
    cases hrv : refValue ref mse with
    | none => rfl
    | some rv => simp [h1, h2]

/-- C7 witness at concrete failing inputs. -/
theorem claim_c7_precondition_failures_witness :
    (get_vad_label id id none 25 [[1]] true = none ∧
      get_nosil_endpoints id id none 25 [[1]] true = none) ∧
    (get_vad_label id id (some 1) 25 [[1]] false = none ∧
      get_nosil_endpoints id id (some 1) 25 [[1]] false = none) ∧
    get_sil_endpoints id 25 256 RefMode.npmax [1] "bad" = none :=
  ⟨claim_c7_precondition_failures.1 id id 25 [[1]],
    claim_c7_precondition_failures.2.1 id id (some 1) 25 [[1]] false (by decide),
    claim_c7_precondition_failures.2.2 id 25 256 RefMode.npmax [1] "bad"
      (by decide) (by decide)⟩

theorem getD_map_mono (db : List ℚ) (p q : ℚ → Bool)
    (hpq : ∀ x, p x = true → q x = true) :
    ∀ i : ℕ, (db.map p).getD i false = true → (db.map q).getD i false = true := by
  intro i h
  rw [List.getD, List.get?_eq_getElem?, List.getElem?_map] at h
  rw [List.getD, List.get?_eq_getElem?, List.getElem?_map]
  rcases hx : db[i]? with _ | x
  · rw [hx] at h
    simp at h
  · rw [hx] at h
    simp at h ⊢
    exact hpq x h

/-- C9: for a fixed decibel profile, raising `top_db` can only enlarge the
set of frames classified as speech by the mask `db > -top_db` and only shrink
the set classified as silence by the mask `db < -top_db`. -/
theorem claim_c9_threshold_monotone (db : List ℚ) (t t2 : ℚ) (h : t ≤ t2) :
    (∀ i : ℕ, (speechMask db t).getD i false = true →
      (speechMask db t2).getD i false = true) ∧
    (∀ i : ℕ, (silMask db t2).getD i false = true →
      (silMask db t).getD i false = true) := by
  constructor
  · exact getD_map_mono db _ _ (fun x hx => by
      simp only [decide_eq_true_eq] at hx ⊢
      linarith)
  · exact getD_map_mono db _ _ (fun x hx => by
      simp only [decide_eq_true_eq] at hx ⊢
      linarith)

/-- C9 witness at a concrete profile and threshold pair. -/
theorem claim_c9_threshold_monotone_witness :
    (25 : ℚ) ≤ 35 ∧
    ((∀ i : ℕ, (speechMask [0, -30] 25).getD i false = true →
      (speechMask [0, -30] 35).getD i false = true) ∧
    (∀ i : ℕ, (silMask [0, -30] 35).getD i false = true →
      (silMask [0, -30] 25).getD i false = true)) :=
  ⟨by norm_num, claim_c9_threshold_monotone [0, -30] 25 35 (by norm_num)⟩

/-- C10: a single 80-band frame classified with the local-maximum reference is
always reported as speech for any positive threshold, because the reference
then equals the frame power itself and the decibel value is zero. -/
theorem claim_c10_single_frame_local_ref (log10 pow10 : ℚ → ℚ) (gref : Option ℚ)
    (top_db : ℚ) (frame : List ℚ) (hlen : frame.length = 80) (htop : 0 < top_db) :
    get_vad_label log10 pow10 gref top_db [frame] false = some true := by
  have hlast : lastDim [frame] = 80 := hlen
  simp [get_vad_label, get_mel_power, get_mel_power_core, npMax, npMaxD, power_to_db, hlast]
  linarith

/-- C10 witness at a concrete zero frame. -/
theorem claim_c10_single_frame_local_ref_witness :
    get_vad_label id id none 25 [List.replicate 80 (0 : ℚ)] false = some true :=
  claim_c10_single_frame_local_ref id id none 25 (List.replicate 80 0) (by simp)
    (by norm_num)

theorem npMax_eq_some (l : List ℚ) (h : l ≠ []) : npMax l = some (npMaxD l) := by
  cases l with
  | nil => exact absurd rfl h
  | cons a t => rfl

/-- The local-reference decibel profile computed by the `MelVad` methods when
`using_global_ref` is false: per-frame power converted against the absolute
value of the maximum power. -/
def melDbLocal (log10 pow10 : ℚ → ℚ) (mels : List (List ℚ)) : List ℚ :=
  power_to_db log10 (get_mel_power_core pow10 mels)
    |npMaxD (get_mel_power_core pow10 mels)|

/-- C2: after run extraction, `MelVad.get_nosil_endpoints` keeps exactly the
maximal speech runs with `end - start > 1` in frame units, unchanged, and
`SigVad._get_sil_endpoints` first scales each run by the hop length and keeps
exactly those with `end - start > 1` in sample units, unchanged. -/
theorem claim_c2_degenerate_run_filter :
    (∀ (log10 pow10 : ℚ → ℚ) (gref : Option ℚ) (top_db : ℚ) (mels : List (List ℚ)),
      lastDim mels = 80 →
      ∃ l, get_nosil_endpoints log10 pow10 gref top_db mels false = some l ∧
        ∀ s e : ℤ, ((s, e) ∈ l ↔ ∃ a b : ℕ,
          IsMaxRun (speechMask (melDbLocal log10 pow10 mels) top_db) a b ∧
          s = (a : ℤ) ∧ e = (b : ℤ) ∧ 1 < e - s)) ∧
    (∀ (log10 : ℚ → ℚ) (top_db : ℚ) (hop : ℤ) (ref : RefMode) (mse : List ℚ) (rv : ℚ),
      refValue ref mse = some rv →
      ∃ l, get_sil_endpoints log10 top_db hop ref mse "sil" = some l ∧
        ∀ s e : ℤ, ((s, e) ∈ l ↔ ∃ a b : ℕ,
          IsMaxRun (silMask (power_to_db log10 mse rv) top_db) a b ∧
          s = (a : ℤ) * hop ∧ e = (b : ℤ) * hop ∧ 1 < e - s)) := by
  constructor
  · intro log10 pow10 gref top_db mels hdim
    have hne : mels ≠ [] := by
      intro h
      rw [h] at hdim
      simp [lastDim] at hdim
    have hcne : get_mel_power_core pow10 mels ≠ [] := by
      rw [get_mel_power_core]
      simp [hne]
    have heq : get_nosil_endpoints log10 pow10 gref top_db mels false =
        endpointScan (fun z => z)
          (speechMask (melDbLocal log10 pow10 mels) top_db) := by
      simp [get_nosil_endpoints, get_mel_power, hdim, npMax_eq_some _ hcne, melDbLocal]
    refine ⟨_, heq.trans (endpointScan_eq _ _), fun s e => ?_⟩
    exact endpointScan_mem (fun z => z) _ _ (endpointScan_eq _ _) s e
  · intro log10 top_db hop ref mse rv hrv
    have heq : get_sil_endpoints log10 top_db hop ref mse "sil" =
        endpointScan (fun z => z * hop)
          (silMask (power_to_db log10 mse rv) top_db) := by
      rw [get_sil_endpoints, hrv]
      simp
    refine ⟨_, heq.trans (endpointScan_eq _ _), fun s e => ?_⟩
    exact endpointScan_mem (fun z => z * hop) _ _ (endpointScan_eq _ _) s e

/-- C2 witness at concrete inputs for both analyzers. -/
theorem claim_c2_degenerate_run_filter_witness :
    (∃ l, get_nosil_endpoints id id none 25 [List.replicate 80 (0 : ℚ)] false = some l ∧
      ∀ s e : ℤ, ((s, e) ∈ l ↔ ∃ a b : ℕ,
        IsMaxRun (speechMask (melDbLocal id id [List.replicate 80 (0 : ℚ)]) 25) a b ∧
        s = (a : ℤ) ∧ e = (b : ℤ) ∧ 1 < e - s)) ∧
    (∃ l, get_sil_endpoints id 25 256 (RefMode.fixed 1) [1, 0] "sil" = some l ∧
      ∀ s e : ℤ, ((s, e) ∈ l ↔ ∃ a b : ℕ,
        IsMaxRun (silMask (power_to_db id [1, 0] |(1 : ℚ)|) 25) a b ∧
        s = (a : ℤ) * 256 ∧ e = (b : ℤ) * 256 ∧ 1 < e - s)) :=
  ⟨claim_c2_degenerate_run_filter.1 id id none 25 [List.replicate 80 (0 : ℚ)] (by decide),
   claim_c2_degenerate_run_filter.2 id 25 256 (RefMode.fixed 1) [1, 0] |(1 : ℚ)| rfl⟩

theorem range_getD_eq_zip (l : List (ℚ × ℚ)) :
    (List.range (l.length - 1)).map
      (fun idx => ((l.getD idx (0, 0)).2, (l.getD (idx + 1) (0, 0)).1)) =
    (l.zip l.tail).map (fun pq => (pq.1.2, pq.2.1)) := by
  induction l with
  | nil => rfl
  | cons a t ih =>
    cases t with
    | nil => rfl
    | cons b t2 =>
      simp only [List.length_cons, Nat.add_sub_cancel]
      rw [List.range_succ_eq_map]
      rw [List.map_cons, List.map_map]
      rw [List.tail_cons, List.zip_cons_cons, List.map_cons]
      have htail : List.map ((fun idx => (((a :: b :: t2).getD idx (0, 0)).2,
          ((a :: b :: t2).getD (idx + 1) (0, 0)).1)) ∘ Nat.succ) (List.range t2.length) =
          List.map (fun pq : (ℚ × ℚ) × ℚ × ℚ => (pq.1.2, pq.2.1)) ((b :: t2).zip t2) := by
        rw [List.tail_cons] at ih
        rw [← ih]
        simp only [List.length_cons, Nat.add_sub_cancel]
        apply List.map_congr_left
        intro idx hidx
        simp [List.getD_cons_succ]
      rw [htail]
      rfl

/-- Leading speech interval of the complement: `(0, firstSilenceStart)`
exactly when the first silence starts later than epsilon = 0.001. -/
def leadOf (sil_data : List (ℚ × ℚ)) : List (ℚ × ℚ) :=
  if (0.001 : ℚ) < (sil_data.headD (0, 0)).1 then [(0, (sil_data.headD (0, 0)).1)] else []

/-- Middle speech intervals of the complement: one interval between each pair
of consecutive silence intervals, unconditionally. -/
def midsOf (sil_data : List (ℚ × ℚ)) : List (ℚ × ℚ) :=
  (sil_data.zip sil_data.tail).map (fun pq => (pq.1.2, pq.2.1))

/-- Trailing speech interval of the complement: `(lastSilenceEnd, dur)`
exactly when the last silence ends more than epsilon = 0.001 before the total
duration. -/
def trailOf (sil_data : List (ℚ × ℚ)) (dur : ℚ) : List (ℚ × ℚ) :=
  if (0.001 : ℚ) < dur - (sil_data.getLastD (0, 0)).2 then
    [((sil_data.getLastD (0, 0)).2, dur)] else []

/-- Reference definition of the silence complement, following the
specification text. -/
def complementIntervals (sil_data : List (ℚ × ℚ)) (dur : ℚ) : List (ℚ × ℚ) :=
  leadOf sil_data ++ midsOf sil_data ++ trailOf sil_data dur

theorem sil_to_nosil_eq_complement (sil_data : List (ℚ × ℚ)) (dur : ℚ)
    (hne : sil_data ≠ []) :
    sil_to_nosil sil_data dur = some (complementIntervals sil_data dur) := by
  cases sil_data with
  | nil => exact absurd rfl hne
  | cons first rest =>
    simp only [sil_to_nosil, complementIntervals, leadOf, midsOf, trailOf, List.headD_cons]
    rw [range_getD_eq_zip]

/-- C3: for every nonempty silence list, `SigVad._sil_to_nosil` returns
exactly the complement intervals described by the specification. -/
theorem claim_c3_sil_to_nosil_complement (sil_data : List (ℚ × ℚ)) (dur : ℚ)
    (hne : sil_data ≠ []) :
    sil_to_nosil sil_data dur = some (complementIntervals sil_data dur) :=
  sil_to_nosil_eq_complement sil_data dur hne

/-- C3 witness at a concrete interval list. -/
theorem claim_c3_sil_to_nosil_complement_witness :
    sil_to_nosil [((1 : ℚ), (2 : ℚ))] 3 =
      some (complementIntervals [((1 : ℚ), (2 : ℚ))] 3) :=
  claim_c3_sil_to_nosil_complement [(1, 2)] 3 (by simp)

/-- Properties of an index conversion that make the filtered scan output
well-ordered: a kept pair is nonnegative and increasing, and two kept pairs
separated by at least one frame stay separated after conversion. -/
def ConvOk (conv : ℤ → ℤ) : Prop :=
  (∀ a b : ℕ, a ≤ b → 1 < conv (b : ℤ) - conv (a : ℤ) →
    0 ≤ conv (a : ℤ) ∧ conv (a : ℤ) < conv (b : ℤ)) ∧
  (∀ a b a2 b2 : ℕ, a ≤ b → b + 1 < a2 → a2 ≤ b2 →
    1 < conv (b : ℤ) - conv (a : ℤ) → 1 < conv (b2 : ℤ) - conv (a2 : ℤ) →
    conv (b : ℤ) < conv (a2 : ℤ))

theorem convOk_id : ConvOk (fun z => z) := by
  constructor
  · intro a b hab h
    dsimp only at h ⊢
    omega
  · intro a b a2 b2 h1 h2 h3 h4 h5
    dsimp only at h4 h5 ⊢
    omega

theorem convOk_hop (hop : ℤ) : ConvOk (fun z => z * hop) := by
  have key : ∀ a b : ℕ, a ≤ b → 1 < (b : ℤ) * hop - (a : ℤ) * hop → 1 ≤ hop := by
    intro a b hab h
    by_contra hcon
    push_neg at hcon
    have hba : (0 : ℤ) ≤ (b : ℤ) - a := by omega
    have hnp : ((b : ℤ) - a) * hop ≤ 0 :=
      mul_nonpos_of_nonneg_of_nonpos hba (by omega)
    nlinarith
  constructor
  · intro a b hab h
    dsimp only at h ⊢
    have hhop := key a b hab h
    constructor
    · exact mul_nonneg (by omega) (by omega)
    · nlinarith
  · intro a b a2 b2 h1 h2 h3 h4 h5
    dsimp only at h4 h5 ⊢
    have hhop := key a b h1 h4
    have hblt : (b : ℤ) < (a2 : ℤ) := by omega
    exact mul_lt_mul_of_pos_right hblt (by omega)

/-- Every list returned by the scan-and-filter tail has nonnegative
increasing interval bounds, each kept pair satisfies the length filter, and
the list is strictly separated. -/
theorem endpointScan_props (conv : ℤ → ℤ) (hconv : ConvOk conv) (mask : List Bool)
    (l : List (ℤ × ℤ)) (h : endpointScan conv mask = some l) :
    (∀ p ∈ l, 0 ≤ p.1 ∧ p.1 < p.2 ∧ 1 < p.2 - p.1) ∧
    List.Pairwise (fun p q : ℤ × ℤ => p.2 < q.1) l := by
  rw [endpointScan_eq] at h
  have hl := Option.some.inj h
  subst hl
  constructor
  · intro p hp
    rw [List.mem_filter] at hp
    obtain ⟨hpm, hpc⟩ := hp
    rw [List.mem_map] at hpm
    obtain ⟨⟨a, b⟩, hab, heq⟩ := hpm
    subst heq
    have hmr := (runs_mem_iff mask a b).1 hab
    have hcond : 1 < conv (b : ℤ) - conv (a : ℤ) := by simpa using hpc
    obtain ⟨h0, hlt⟩ := hconv.1 a b hmr.1 hcond
    exact ⟨h0, hlt, hcond⟩
  · have h1 : List.Pairwise
        (fun p q : ℕ × ℕ => p.1 ≤ p.2 ∧ q.1 ≤ q.2 ∧ p.2 + 1 < q.1) (runs mask) := by
      refine (runs_pairwise mask).imp_of_mem ?_
      intro p q hp hq hlt
      obtain ⟨a, b⟩ := p
      obtain ⟨a2, b2⟩ := q
      exact ⟨((runs_mem_iff mask a b).1 hp).1, ((runs_mem_iff mask a2 b2).1 hq).1, hlt⟩
    have h2 : List.Pairwise (fun x y : ℤ × ℤ =>
        1 < x.2 - x.1 → 1 < y.2 - y.1 → x.2 < y.1)
        ((runs mask).map (fun p => (conv (p.1 : ℤ), conv (p.2 : ℤ)))) := by
      refine h1.map _ ?_
      intro p q hpq
      obtain ⟨a, b⟩ := p
      obtain ⟨a2, b2⟩ := q
      intro hx hy
      exact hconv.2 a b a2 b2 hpq.1 hpq.2.2 hpq.2.1 (by simpa using hx) (by simpa using hy)
    refine (h2.filter _).imp_of_mem ?_
    intro x y hx hy hxy
    have hcx : 1 < x.2 - x.1 := by simpa using List.of_mem_filter hx
    have hcy : 1 < y.2 - y.1 := by simpa using List.of_mem_filter hy
    exact hxy hcx hcy

/-- Any successful result of `SigVad._get_sil_endpoints` consists of
nonnegative increasing pairs longer than one sample, strictly separated. -/
theorem get_sil_endpoints_props (log10 : ℚ → ℚ) (top_db : ℚ) (hop : ℤ)
    (ref : RefMode) (mse : List ℚ) (st : String) (l : List (ℤ × ℤ))
    (h : get_sil_endpoints log10 top_db hop ref mse st = some l) :
    (∀ p ∈ l, 0 ≤ p.1 ∧ p.1 < p.2 ∧ 1 < p.2 - p.1) ∧
    List.Pairwise (fun p q : ℤ × ℤ => p.2 < q.1) l := by
  rw [get_sil_endpoints] at h
  split at h
  · exact absurd h (by simp)
  · split at h
    · exact endpointScan_props _ (convOk_hop hop) _ l h
    · split at h
      · exact endpointScan_props _ (convOk_hop hop) _ l h
      · exact absurd h (by simp)

/-- Any successful result of `MelVad.get_nosil_endpoints` consists of
nonnegative increasing pairs longer than one frame, strictly separated. -/
theorem get_nosil_endpoints_props (log10 pow10 : ℚ → ℚ) (gref : Option ℚ)
    (top_db : ℚ) (mels : List (List ℚ)) (ug : Bool) (l : List (ℤ × ℤ))
    (h : get_nosil_endpoints log10 pow10 gref top_db mels ug = some l) :
    (∀ p ∈ l, 0 ≤ p.1 ∧ p.1 < p.2 ∧ 1 < p.2 - p.1) ∧
    List.Pairwise (fun p q : ℤ × ℤ => p.2 < q.1) l := by
  rw [get_nosil_endpoints] at h
  split at h
  · split at h
    · split at h
      · exact absurd h (by simp)
      · split at h
        · exact absurd h (by simp)
        · exact endpointScan_props _ convOk_id _ l h
    · exact absurd h (by simp)
  · exact absurd h (by simp)

theorem div_lt_div_right_q (a b c : ℚ) (hc : 0 < c) (h : a < b) : a / c < b / c := by
  rw [div_lt_div_iff hc hc]
  nlinarith

/-- Every silence list surviving the minimum-duration filter consists of
nonnegative increasing second-valued intervals longer than `min_sil_dur`, and
is strictly separated in time. -/
theorem filteredSil_props (log10 : ℚ → ℚ) (top_db : ℚ) (hop : ℤ) (ref : RefMode)
    (sr : ℚ) (mse : List ℚ) (msd : ℚ) (sd : List (ℚ × ℚ)) (hsr : 0 < sr)
    (h : filteredSil log10 top_db hop ref sr mse msd = some sd) :
    (∀ p ∈ sd, 0 ≤ p.1 ∧ p.1 < p.2 ∧ msd < p.2 - p.1) ∧
    List.Pairwise (fun p q : ℚ × ℚ => p.2 < q.1) sd := by
  rw [filteredSil, Option.map_eq_some'] at h
  obtain ⟨l0, hl0, hmap⟩ := h
  obtain ⟨hel0, hpw0⟩ := get_sil_endpoints_props log10 top_db hop ref mse "sil" l0 hl0
  subst hmap
  constructor
  · intro p hp
    rw [List.mem_map] at hp
    obtain ⟨q, hq, heq⟩ := hp
    rw [List.mem_filter] at hq
    obtain ⟨hq0, hqc⟩ := hq
    obtain ⟨hq1, hq2, _⟩ := hel0 q hq0
    have hcond : sr * msd < (q.2 : ℚ) - (q.1 : ℚ) := by simpa using hqc
    subst heq
    dsimp only
    refine ⟨?_, ?_, ?_⟩
    · exact div_nonneg (by exact_mod_cast hq1) (le_of_lt hsr)
    · exact div_lt_div_right_q _ _ _ hsr (by exact_mod_cast hq2)
    · have hsub : (q.2 : ℚ) / sr - (q.1 : ℚ) / sr = ((q.2 : ℚ) - (q.1 : ℚ)) / sr := by
        ring
      rw [hsub, lt_div_iff hsr]
      nlinarith
  · refine List.Pairwise.map _ ?_ (hpw0.filter _)
    intro a b hab
    dsimp only
    exact div_lt_div_right_q _ _ _ hsr (by exact_mod_cast hab)

theorem getLastD_cons_cons (a b : ℚ × ℚ) (t : List (ℚ × ℚ)) (d : ℚ × ℚ) :
    (a :: b :: t).getLastD d = (b :: t).getLastD d := by
  rw [List.getLastD_eq_getLast?, List.getLastD_eq_getLast?, List.getLast?_cons_cons]

/-- Middle and trailing complement intervals of a sorted positive silence
list: each is increasing, consecutive ones touch at most at the boundary, and
the first one starts at the end of the first silence interval. -/
theorem mids_trail_props (dur : ℚ) :
    ∀ (sd : List (ℚ × ℚ)), sd ≠ [] →
      (∀ p ∈ sd, 0 ≤ p.1 ∧ p.1 < p.2) →
      List.Chain' (fun p q : ℚ × ℚ => p.2 < q.1) sd →
      (∀ m ∈ midsOf sd ++ trailOf sd dur, m.1 < m.2) ∧
      List.Chain' (fun m m2 : ℚ × ℚ => m.2 ≤ m2.1) (midsOf sd ++ trailOf sd dur) ∧
      (∀ y ∈ (midsOf sd ++ trailOf sd dur).head?, y.1 = (sd.headD (0, 0)).2) := by
  intro sd
  induction sd with
  | nil => intro hne; exact absurd rfl hne
  | cons a t ih =>
    intro hne hel hch
    cases t with
    | nil =>
      rw [show midsOf [a] = [] from rfl, List.nil_append, trailOf,
        show ([a] : List (ℚ × ℚ)).getLastD (0, 0) = a from rfl]
      by_cases hg : (0.001 : ℚ) < dur - a.2
      · rw [if_pos hg]
        refine ⟨?_, List.chain'_singleton _, ?_⟩
        · intro m hm
          simp only [List.mem_singleton] at hm
          subst hm
          dsimp only
          linarith
        · intro y hy
          simp only [List.head?_cons, Option.mem_def, Option.some.injEq] at hy
          subst hy
          rfl
      · rw [if_neg hg]
        exact ⟨by simp, List.chain'_nil, by simp⟩
    | cons b t2 =>
      have hmids : midsOf (a :: b :: t2) = (a.2, b.1) :: midsOf (b :: t2) := rfl
      have htrail : trailOf (a :: b :: t2) dur = trailOf (b :: t2) dur := by
        rw [trailOf, trailOf, getLastD_cons_cons]
      have hchtail : List.Chain' (fun p q : ℚ × ℚ => p.2 < q.1) (b :: t2) :=
        (List.chain'_cons.mp hch).2
      have hab : a.2 < b.1 := (List.chain'_cons.mp hch).1
      obtain ⟨ih1, ih2, ih3⟩ := ih (by simp)
        (fun p hp => hel p (List.mem_cons_of_mem a hp)) hchtail
      rw [hmids, htrail, List.cons_append]
      refine ⟨?_, ?_, ?_⟩
      · intro m hm
        rcases List.mem_cons.mp hm with hm | hm
        · subst hm
          dsimp only
          exact hab
        · exact ih1 m hm
      · rw [List.chain'_cons']
        refine ⟨?_, ih2⟩
        intro y hy
        have hy1 := ih3 y hy
        rw [hy1]
        dsimp only [List.headD_cons]
        exact le_of_lt (hel b (by simp)).2
      · intro y hy
        simp only [List.head?_cons, Option.mem_def, Option.some.injEq] at hy
        subst hy
        rfl

theorem chain_le_all (l : List (ℚ × ℚ)) (x : ℚ × ℚ)
    (hall : ∀ p ∈ l, p.1 < p.2)
    (hch : List.Chain' (fun p q : ℚ × ℚ => p.2 ≤ q.1) (x :: l)) :
    ∀ y ∈ l, x.2 ≤ y.1 := by
  induction l generalizing x with
  | nil => intro y hy; simp at hy
  | cons y0 l2 ih =>
    intro y hy
    have hxy0 : x.2 ≤ y0.1 := (List.chain'_cons.mp hch).1
    rcases List.mem_cons.mp hy with hy | hy
    · subst hy
      exact hxy0
    · have h2 := ih y0 (fun p hp => hall p (List.mem_cons_of_mem y0 hp))
        (List.chain'_cons.mp hch).2 y hy
      have hy0 : y0.1 < y0.2 := hall y0 (by simp)
      linarith

theorem chain_to_pairwise (l : List (ℚ × ℚ))
    (hall : ∀ p ∈ l, p.1 < p.2)
    (hch : List.Chain' (fun p q : ℚ × ℚ => p.2 ≤ q.1) l) :
    List.Pairwise (fun p q : ℚ × ℚ => p.2 ≤ q.1) l := by
  induction l with
  | nil => exact List.Pairwise.nil
  | cons x l2 ih =>
    rw [List.pairwise_cons]
    refine ⟨chain_le_all l2 x (fun p hp => hall p (List.mem_cons_of_mem x hp)) hch, ?_⟩
    exact ih (fun p hp => hall p (List.mem_cons_of_mem x hp)) hch.tail

/-- The complement of a sorted positive silence list consists of increasing
intervals, pairwise separated. -/
theorem complement_props (sd : List (ℚ × ℚ)) (dur : ℚ) (hne : sd ≠ [])
    (hel : ∀ p ∈ sd, 0 ≤ p.1 ∧ p.1 < p.2)
    (hpw : List.Pairwise (fun p q : ℚ × ℚ => p.2 < q.1) sd) :
    (∀ p ∈ complementIntervals sd dur, p.1 < p.2) ∧
    List.Pairwise (fun p q : ℚ × ℚ => p.2 ≤ q.1) (complementIntervals sd dur) := by
  obtain ⟨h1, h2, h3⟩ := mids_trail_props dur sd hne hel hpw.chain'
  have hhead : (sd.headD (0, 0)).1 ≤ (sd.headD (0, 0)).2 := by
    cases sd with
    | nil => exact absurd rfl hne
    | cons a t =>
      dsimp only [List.headD_cons]
      exact le_of_lt (hel a (by simp)).2
  have hall : ∀ p ∈ complementIntervals sd dur, p.1 < p.2 := by
    intro p hp
    rw [complementIntervals, List.append_assoc] at hp
    rcases List.mem_append.mp hp with hp | hp
    · rw [leadOf] at hp
      by_cases hg : (0.001 : ℚ) < (sd.headD (0, 0)).1
      · rw [if_pos hg] at hp
        simp only [List.mem_singleton] at hp
        subst hp
        dsimp only
        linarith
      · rw [if_neg hg] at hp
        simp at hp
    · exact h1 p hp
  refine ⟨hall, ?_⟩
  apply chain_to_pairwise _ hall
  rw [complementIntervals, List.append_assoc]
  apply List.Chain'.append ?_ h2 ?_
  · rw [leadOf]
    by_cases hg : (0.001 : ℚ) < (sd.headD (0, 0)).1
    · rw [if_pos hg]
      exact List.chain'_singleton _
    · rw [if_neg hg]
      exact List.chain'_nil
  · intro x hx y hy
    rw [leadOf] at hx
    by_cases hg : (0.001 : ℚ) < (sd.headD (0, 0)).1
    · rw [if_pos hg] at hx
      simp only [List.getLast?_singleton, Option.mem_def, Option.some.injEq] at hx
      subst hx
      have hy1 := h3 y hy
      rw [hy1]
      dsimp only
      exact hhead
    · rw [if_neg hg] at hx
      simp at hx

/-- C4: when no silence interval survives the minimum-silence-duration
filter, `SigVad.get_speech_endpoint` returns exactly the single interval
`(0, duration)` with `duration = len(signal) / sr`. -/
theorem claim_c4_no_silence_full_clip (log10 : ℚ → ℚ) (top_db : ℚ) (hop : ℤ)
    (ref : RefMode) (n : ℕ) (sr : ℚ) (mse : List ℚ) (msd mnd : ℚ)
    (h : filteredSil log10 top_db hop ref sr mse msd = some []) :
    get_speech_endpoint log10 top_db hop ref n sr mse msd mnd =
      some [(0, (n : ℚ) / sr)] := by
  simp [get_speech_endpoint, h]

theorem runsFrom_all_false (n : ℕ) :
    ∀ (i s : ℕ), runsFrom (List.replicate n false) i false s = [] := by
  induction n with
  | zero => intro i s; rfl
  | succ m ih =>
    intro i s
    rw [List.replicate_succ]
    exact ih (i + 1) s

theorem endpointScan_all_false (conv : ℤ → ℤ) (n : ℕ) :
    endpointScan conv (List.replicate n false) = some [] := by
  rw [endpointScan_eq, runs, runsFrom_all_false n 0 0]
  rfl

theorem foldl_max_zero (k : ℕ) :
    List.foldl max (0 : ℚ) (List.replicate k 0) = 0 := by
  induction k with
  | zero => rfl
  | succ j ih =>
    rw [List.replicate_succ, List.foldl_cons, max_self]
    exact ih

theorem npMaxD_replicate_zero (m : ℕ) :
    npMaxD (List.replicate (m + 1) (0 : ℚ)) = 0 := by
  rw [List.replicate_succ, npMaxD]
  exact foldl_max_zero m

theorem power_to_db_zero (log10 : ℚ → ℚ) (n : ℕ) :
    power_to_db log10 (List.replicate n 0) 0 = List.replicate n 0 := by
  rw [power_to_db, List.map_replicate]
  congr 1
  rw [abs_zero]
  ring

theorem silMask_zero (n : ℕ) (top : ℚ) (htop : 0 < top) :
    silMask (List.replicate n 0) top = List.replicate n false := by
  rw [silMask, List.map_replicate]
  congr 1
  rw [decide_eq_false_iff_not]
  intro hcon
  linarith

/-- An all-zero squared rms profile yields no silence endpoints under the
default `np.max` reference: all decibel values are exactly zero. -/
theorem get_sil_endpoints_zero (log10 : ℚ → ℚ) (top : ℚ) (hop : ℤ) (m : ℕ)
    (htop : 0 < top) :
    get_sil_endpoints log10 top hop RefMode.npmax
      (List.replicate (m + 1) 0) "sil" = some [] := by
  have h1 : refValue RefMode.npmax (List.replicate (m + 1) (0 : ℚ)) = some 0 := by
    rw [refValue, List.replicate_succ, npMax, ← List.replicate_succ,
      npMaxD_replicate_zero]
  rw [get_sil_endpoints, h1]
  have h2 := power_to_db_zero log10 (m + 1)
  have h3 := silMask_zero (m + 1) top htop
  simp [h2, h3, endpointScan_all_false]

theorem filteredSil_zero (log10 : ℚ → ℚ) (top : ℚ) (hop : ℤ) (m : ℕ) (sr msd : ℚ)
    (htop : 0 < top) :
    filteredSil log10 top hop RefMode.npmax sr (List.replicate (m + 1) 0) msd =
      some [] := by
  rw [filteredSil, get_sil_endpoints_zero log10 top hop m htop]
  rfl

/-- C4 witness: the all-silence scenario, a 3.0 second all-zero waveform of
48000 samples at 16000 Hz whose 188-frame squared rms profile is all zero;
with the local maximum reference nothing is classified silence and the whole
clip is one speech interval `(0, 3)`. -/
theorem claim_c4_no_silence_full_clip_witness :
    get_speech_endpoint id 25 256 RefMode.npmax 48000 16000
        (List.replicate 188 0) (3 / 4) (2 / 5) =
      some [(0, (48000 : ℚ) / 16000)] :=
  claim_c4_no_silence_full_clip id 25 256 RefMode.npmax 48000 16000
    (List.replicate 188 0) (3 / 4) (2 / 5)
    (filteredSil_zero id 25 256 187 16000 (3 / 4) (by norm_num))

/-- C5 counterexample: a 0.1 second clip (1600 samples at 16000 Hz) with an
all-zero squared rms profile has no silence interval, so the full-clip
fallback `(0, 0.1)` is returned even though its duration 0.1 is strictly
smaller than `min_nosil_dur = 0.4`; the returned list therefore contains an
interval shorter than the configured minimum. -/
theorem claim_c5_counterexample :
    get_speech_endpoint id 25 256 RefMode.npmax 1600 16000 (List.replicate 7 0)
        (3 / 4) (2 / 5) = some [(0, (1600 : ℚ) / 16000)] ∧
      ((1600 : ℚ) / 16000 - 0 < 2 / 5) := by
  constructor
  · have h : filteredSil id 25 256 RefMode.npmax 16000 [0, 0, 0, 0, 0, 0, 0] (3 / 4) =
        some [] := filteredSil_zero id 25 256 6 16000 (3 / 4) (by norm_num)
    simp [get_speech_endpoint, h]
  · norm_num

/-- C5 amended: the silence intervals kept by `get_speech_endpoint` all have
duration strictly greater than `min_sil_dur`, and in the branch where at least
one silence interval survives, every returned speech interval has duration
strictly greater than `min_nosil_dur`; the no-silence fallback `(0, dur)` is
returned without that guarantee. -/
theorem claim_c5_min_duration_filter (log10 : ℚ → ℚ) (top_db : ℚ) (hop : ℤ)
    (ref : RefMode) (n : ℕ) (sr : ℚ) (mse : List ℚ) (msd mnd : ℚ)
    (sd l : List (ℚ × ℚ)) (hsr : 0 < sr)
    (hsd : filteredSil log10 top_db hop ref sr mse msd = some sd)
    (hne : sd ≠ [])
    (hl : get_speech_endpoint log10 top_db hop ref n sr mse msd mnd = some l) :
    (∀ q ∈ sd, msd < q.2 - q.1) ∧ (∀ p ∈ l, mnd < p.2 - p.1) := by
  constructor
  · intro q hq
    exact ((filteredSil_props log10 top_db hop ref sr mse msd sd hsr hsd).1 q hq).2.2
  · simp only [get_speech_endpoint, hsd] at hl
    rw [if_neg (by simpa using hne)] at hl
    rw [sil_to_nosil_eq_complement sd ((n : ℚ) / sr) hne] at hl
    have hleq := Option.some.inj hl
    subst hleq
    intro p hp
    simpa using List.of_mem_filter hp

theorem abs_four_q : |(4 : ℚ)| = 4 := abs_of_nonneg (by norm_num)

theorem max_amin_four : max amin (4 : ℚ) = 4 := max_eq_right (by norm_num [amin])

theorem max_amin_abs_zero : max amin |(0 : ℚ)| = amin := by
  rw [abs_zero]
  exact max_eq_left (by norm_num [amin])

/-- Concrete evaluation: a squared rms profile with one long interior quiet
region, classified against a fixed reference of 4, yields a single silence
run of frames 1 to 6, reported in samples as `(256, 1536)`. -/
theorem eval_sil_endpoints_mse8 :
    get_sil_endpoints id 25 256 (RefMode.fixed 4) [4, 0, 0, 0, 0, 0, 0, 4] "sil" =
      some [(256, 1536)] := by
  have hmask : silMask (power_to_db id [4, 0, 0, 0, 0, 0, 0, 4] |(4 : ℚ)|) 25 =
      [false, true, true, true, true, true, true, false] := by
    simp only [power_to_db, silMask, List.map_cons, List.map_nil, id_eq, abs_four_q,
      max_amin_four, max_amin_abs_zero]
    norm_num [amin]
  have hscan : endpointScan (fun z => z * 256)
      [false, true, true, true, true, true, true, false] = some [(256, 1536)] := by
    decide
  have heq : get_sil_endpoints id 25 256 (RefMode.fixed 4)
      [4, 0, 0, 0, 0, 0, 0, 4] "sil" =
      endpointScan (fun z => z * 256)
        (silMask (power_to_db id [4, 0, 0, 0, 0, 0, 0, 4] |(4 : ℚ)|) 25) := rfl
  rw [heq, hmask, hscan]

theorem eval_filteredSil_mse8 :
    filteredSil id 25 256 (RefMode.fixed 4) 100 [4, 0, 0, 0, 0, 0, 0, 4] 1 =
      some [((64 : ℚ) / 25, (384 : ℚ) / 25)] := by
  rw [filteredSil, eval_sil_endpoints_mse8]
  norm_num [List.filter]

theorem eval_speech_endpoint_mse8 :
    get_speech_endpoint id 25 256 (RefMode.fixed 4) 2000 100
      [4, 0, 0, 0, 0, 0, 0, 4] 1 1 =
      some [((0 : ℚ), (64 : ℚ) / 25), ((384 : ℚ) / 25, (20 : ℚ))] := by
  simp only [get_speech_endpoint, eval_filteredSil_mse8]
  rw [sil_to_nosil_eq_complement _ _ (by simp)]
  simp only [complementIntervals, leadOf, midsOf, trailOf, List.headD_cons]
  norm_num [List.filter, List.getLastD_eq_getLast?]

/-- C5 amended witness: a profile with one long interior silence; both the
silence interval and the two complement speech intervals respect their
minimum durations. -/
theorem claim_c5_min_duration_filter_witness :
    (∀ q ∈ [((64 : ℚ) / 25, (384 : ℚ) / 25)], (1 : ℚ) < q.2 - q.1) ∧
    (∀ p ∈ [((0 : ℚ), (64 : ℚ) / 25), ((384 : ℚ) / 25, (20 : ℚ))],
      (1 : ℚ) < p.2 - p.1) :=
  claim_c5_min_duration_filter id 25 256 (RefMode.fixed 4) 2000 100
    [4, 0, 0, 0, 0, 0, 0, 4] 1 1 [((64 : ℚ) / 25, (384 : ℚ) / 25)]
    [((0 : ℚ), (64 : ℚ) / 25), ((384 : ℚ) / 25, (20 : ℚ))]
    (by norm_num) eval_filteredSil_mse8 (by simp) eval_speech_endpoint_mse8

/-- C8: every interval list returned by `MelVad.get_nosil_endpoints`,
`SigVad._get_sil_endpoints` or `SigVad.get_speech_endpoint` is sorted
ascending by start, non-overlapping (`end <= next start`), and every interval
is increasing (`start < end`).  For `get_speech_endpoint` the signal is
nonempty and the sample rate positive: an empty signal makes the external rms
call raise before any list is returned, and the data model requires a
positive sample rate. -/
theorem claim_c8_output_invariants :
    (∀ (log10 pow10 : ℚ → ℚ) (gref : Option ℚ) (top_db : ℚ) (mels : List (List ℚ))
      (ug : Bool) (l : List (ℤ × ℤ)),
      get_nosil_endpoints log10 pow10 gref top_db mels ug = some l →
      (∀ p ∈ l, p.1 < p.2) ∧
      List.Pairwise (fun p q : ℤ × ℤ => p.1 < q.1 ∧ p.2 ≤ q.1) l) ∧
    (∀ (log10 : ℚ → ℚ) (top_db : ℚ) (hop : ℤ) (ref : RefMode) (mse : List ℚ)
      (st : String) (l : List (ℤ × ℤ)),
      get_sil_endpoints log10 top_db hop ref mse st = some l →
      (∀ p ∈ l, p.1 < p.2) ∧
      List.Pairwise (fun p q : ℤ × ℤ => p.1 < q.1 ∧ p.2 ≤ q.1) l) ∧
    (∀ (log10 : ℚ → ℚ) (top_db : ℚ) (hop : ℤ) (ref : RefMode) (n : ℕ) (sr : ℚ)
      (mse : List ℚ) (msd mnd : ℚ) (l : List (ℚ × ℚ)), 0 < n → 0 < sr →
      get_speech_endpoint log10 top_db hop ref n sr mse msd mnd = some l →
      (∀ p ∈ l, p.1 < p.2) ∧
      List.Pairwise (fun p q : ℚ × ℚ => p.1 < q.1 ∧ p.2 ≤ q.1) l) := by
  refine ⟨?_, ?_, ?_⟩
  · intro log10 pow10 gref top_db mels ug l h
    obtain ⟨hel, hpw⟩ := get_nosil_endpoints_props log10 pow10 gref top_db mels ug l h
    refine ⟨fun p hp => (hel p hp).2.1, ?_⟩
    refine hpw.imp_of_mem ?_
    intro p q hp hq hlt
    have h1 := (hel p hp).2.1
    exact ⟨by omega, by omega⟩
  · intro log10 top_db hop ref mse st l h
    obtain ⟨hel, hpw⟩ := get_sil_endpoints_props log10 top_db hop ref mse st l h
    refine ⟨fun p hp => (hel p hp).2.1, ?_⟩
    refine hpw.imp_of_mem ?_
    intro p q hp hq hlt
    have h1 := (hel p hp).2.1
    exact ⟨by omega, by omega⟩
  · intro log10 top_db hop ref n sr mse msd mnd l hn hsr h
    simp only [get_speech_endpoint] at h
    split at h
    · simp at h
    · rename_i sd hsd
      split at h
      · rename_i hlen0
        have hl := Option.some.inj h
        subst hl
        constructor
        · intro p hp
          simp only [List.mem_singleton] at hp
          subst hp
          dsimp only
          exact div_pos (by exact_mod_cast hn) hsr
        · exact List.pairwise_singleton _ _
      · rename_i hlen0
        have hne : sd ≠ [] := by
          intro hc
          subst hc
          simp at hlen0
        split at h
        · rename_i hnsl
          rw [sil_to_nosil_eq_complement sd ((n : ℚ) / sr) hne] at hnsl
          simp at hnsl
        · rename_i nsl hnsl
          have hl := Option.some.inj h
          subst hl
          obtain ⟨helsd, hpwsd⟩ :=
            filteredSil_props log10 top_db hop ref sr mse msd sd hsr hsd
          have hcomp := sil_to_nosil_eq_complement sd ((n : ℚ) / sr) hne
          rw [hnsl] at hcomp
          have hnsleq : nsl = complementIntervals sd ((n : ℚ) / sr) :=
            Option.some.inj hcomp
          subst hnsleq
          obtain ⟨hallc, hpwc⟩ := complement_props sd ((n : ℚ) / sr) hne
            (fun p hp => ⟨(helsd p hp).1, (helsd p hp).2.1⟩) hpwsd
          constructor
          · intro p hp
            exact hallc p (List.mem_of_mem_filter hp)
          · refine (hpwc.filter _).imp_of_mem ?_
            intro p q hp hq hle
            have hp1 : p.1 < p.2 := hallc p (List.mem_of_mem_filter hp)
            exact ⟨lt_of_lt_of_le hp1 hle, hle⟩

/-- Concrete evaluation: one all-zero 80-band frame in local-reference mode
has decibel value zero, the single frame is classified speech, and the
single-frame run is removed by the degenerate-run filter. -/
theorem eval_nosil_zero_frame :
    get_nosil_endpoints id id none 25 [List.replicate 80 (0 : ℚ)] false = some [] := by
  have hS : get_mel_power_core id [List.replicate 80 (0 : ℚ)] = [(-320 : ℚ)] := by
    simp only [get_mel_power_core, List.map_cons, List.map_nil, List.map_replicate,
      List.sum_replicate, id_eq, np_clip, min_level_db, ref_level_db, max_self,
      min_eq_right (by norm_num : (0 : ℚ) ≤ 1), nsmul_eq_mul]
    norm_num
  have habs : |(-320 : ℚ)| = 320 := by
    rw [abs_neg]
    exact abs_of_nonneg (by norm_num)
  have hmax320 : max amin (320 : ℚ) = 320 := max_eq_right (by norm_num [amin])
  have hmask : speechMask (melDbLocal id id [List.replicate 80 (0 : ℚ)]) 25 = [true] := by
    rw [melDbLocal, hS]
    rw [show npMaxD [(-320 : ℚ)] = -320 from rfl]
    simp only [power_to_db, speechMask, List.map_cons, List.map_nil, id_eq, habs, hmax320]
    norm_num
  have heq : get_nosil_endpoints id id none 25 [List.replicate 80 (0 : ℚ)] false =
      endpointScan (fun z => z)
        (speechMask (melDbLocal id id [List.replicate 80 (0 : ℚ)]) 25) := rfl
  rw [heq, hmask]
  decide

/-- C8 witness at concrete inputs for all three functions. -/
theorem claim_c8_output_invariants_witness :
    ((∀ p ∈ ([] : List (ℤ × ℤ)), p.1 < p.2) ∧
      List.Pairwise (fun p q : ℤ × ℤ => p.1 < q.1 ∧ p.2 ≤ q.1) ([] : List (ℤ × ℤ))) ∧
    ((∀ p ∈ [((256 : ℤ), (1536 : ℤ))], p.1 < p.2) ∧
      List.Pairwise (fun p q : ℤ × ℤ => p.1 < q.1 ∧ p.2 ≤ q.1) [((256 : ℤ), (1536 : ℤ))]) ∧
    ((∀ p ∈ [((0 : ℚ), (64 : ℚ) / 25), ((384 : ℚ) / 25, (20 : ℚ))], p.1 < p.2) ∧
      List.Pairwise (fun p q : ℚ × ℚ => p.1 < q.1 ∧ p.2 ≤ q.1)
        [((0 : ℚ), (64 : ℚ) / 25), ((384 : ℚ) / 25, (20 : ℚ))]) :=
  ⟨claim_c8_output_invariants.1 id id none 25 [List.replicate 80 (0 : ℚ)] false []
      eval_nosil_zero_frame,
    claim_c8_output_invariants.2.1 id 25 256 (RefMode.fixed 4) [4, 0, 0, 0, 0, 0, 0, 4]
      "sil" [((256 : ℤ), (1536 : ℤ))] eval_sil_endpoints_mse8,
    claim_c8_output_invariants.2.2 id 25 256 (RefMode.fixed 4) 2000 100
      [4, 0, 0, 0, 0, 0, 0, 4] 1 1 [((0 : ℚ), (64 : ℚ) / 25), ((384 : ℚ) / 25, (20 : ℚ))]
      (by norm_num) (by norm_num) eval_speech_endpoint_mse8⟩
